import Mathlib

/-!
Verification of the mini-render-queue job runner (src/main.py).

The development shallowly embeds the program:

* `Json` models the values produced by `json.load`.
* `pyInt` models Python's built-in `int()` coercion as used in
  `load_job_file` (`int(data.get("priority", 0))`).
* `JobItem` mirrors the `@dataclass(order=True)` of the same name; the
  derived comparison (lexicographic on the tuple
  `(sort_index, priority, created_at, job_id, command)`, with `raw`
  excluded by `compare=False`) is `itemLt`.  Float timestamps enter the
  program only through order comparisons, so `created_at` is modelled by
  an integer.
* `siftdownAux`, `siftupAux`, `heappush`, `heappop` are the CPython
  `heapq` routines that `JobQueue` delegates to, written on `List`s with
  a fuel argument in place of the unbounded `while` loops (the fuel is
  always instantiated so that it cannot run out, see the wrappers).
* `load_job_file`, `scan_jobs_directory`, `process_job`, `parse_args`,
  `GracefulKiller` and the state-machine `loopStep` embed the remaining
  functions of main.py; filesystem and subprocess effects are passed in
  explicitly (`JobFile`, `RunOutcome`) and log output is modelled by the
  `Event` trace.
-/

/-- Values produced by `json.load`: null, booleans, numbers (integral
numbers parse to Python `int`, numbers with a fractional part to `float`,
modelled by `Rat`), strings, arrays and objects.  An object is its list
of key/value pairs (keys distinct, as produced by the JSON parser). -/
inductive Json where
  | jnull
  | jbool (b : Bool)
  | jint (n : Int)
  | jfloat (q : Rat)
  | jstr (s : String)
  | jarr (xs : List Json)
  | jobj (fields : List (String × Json))

/-- Python compares strings code point by code point, which agrees with
the order on `String` used here; the built-in decision procedure for
`String` order does not reduce in the kernel, so decisions are routed
through the underlying character lists. -/
instance decStringLtData (s t : String) : Decidable (s < t) :=
  decidable_of_iff (s.data < t.data) (Iff.symm String.lt_iff_toList_lt)

/-- ASCII whitespace stripped by Python's `int(str)` conversion. -/
def isPySpace (c : Char) : Bool :=
  c = ' ' || c = '\t' || c = '\n' || c = '\r' || c = '\x0b' || c = '\x0c'

/-- Value of a list of decimal digit characters. -/
def digitsToNat (ds : List Char) : Nat :=
  ds.foldl (fun acc c => 10 * acc + (c.toNat - 48)) 0

/-- Models Python's `int(str)`: surrounding whitespace is stripped, an
optional single sign is allowed, and the remainder must be one or more
decimal digits (digit-grouping underscores are not used by the program's
descriptors and are not modelled).  Anything else raises `ValueError`,
modelled by `none`. -/
def pyIntOfString (s : String) : Option Int :=
  match List.reverse (List.dropWhile isPySpace
      (List.reverse (List.dropWhile isPySpace s.data))) with
  | [] => none
  | c :: rest =>
    if c = '-' then
      if rest ≠ [] ∧ rest.all Char.isDigit then some (-(digitsToNat rest : Int)) else none
    else if c = '+' then
      if rest ≠ [] ∧ rest.all Char.isDigit then some ((digitsToNat rest : Int)) else none
    else
      if (c :: rest).all Char.isDigit then some ((digitsToNat (c :: rest) : Int)) else none

/-- Models Python's built-in `int()` on a JSON value, as used by
`int(data.get("priority", 0))`: ints are returned as-is, bools are 0/1
(`bool` is an `int` subclass), floats truncate toward zero, strings are
parsed as decimal integers, and everything else raises (`none`). -/
def pyInt : Json → Option Int
  | Json.jint n => some n
  | Json.jbool b => some (if b then 1 else 0)
  | Json.jfloat q => some (Int.tdiv q.num q.den)
  | Json.jstr s => pyIntOfString s
  | _ => none

/-- The `JobItem` dataclass of main.py.  `sort_index` is not stored: it is
derived in `__post_init__` from `priority` and `created_at` and is
represented by the function `sortIndex`.  Field types follow the
dataclass annotations (`priority: int`, `created_at: float`,
`job_id: str`, `command: str`, `raw: dict`); `created_at` (an mtime,
used only in order comparisons) is modelled by an integer. -/
structure JobItem where
  priority : Int
  created_at : Int
  job_id : String
  command : String
  raw : Json

/-- The `sort_index` computed by `JobItem.__post_init__`:
`(-self.priority, self.created_at)`. -/
def sortIndex (j : JobItem) : Int × Int := (-j.priority, j.created_at)

/-- Python's `<` on pairs of ints: lexicographic. -/
def tupLt (p q : Int × Int) : Prop :=
  p.1 < q.1 ∨ (p.1 = q.1 ∧ p.2 < q.2)

instance (p q : Int × Int) : Decidable (tupLt p q) := by
  unfold tupLt; infer_instance

/-- The comparison generated by `@dataclass(order=True)` on `JobItem`:
lexicographic on the field tuple
`(sort_index, priority, created_at, job_id, command)`; `raw` is marked
`compare=False` and does not participate. -/
def itemLt (a b : JobItem) : Prop :=
  tupLt (sortIndex a) (sortIndex b) ∨
    (sortIndex a = sortIndex b ∧
      (a.priority < b.priority ∨
        (a.priority = b.priority ∧
          (a.created_at < b.created_at ∨
            (a.created_at = b.created_at ∧
              (a.job_id < b.job_id ∨
                (a.job_id = b.job_id ∧ a.command < b.command)))))))

instance instDecItemLt (a b : JobItem) : Decidable (itemLt a b) := by
  unfold itemLt; infer_instance

/-- Linear-order key equivalent to `itemLt`: the dataclass field tuple
read as a nested lexicographic product. -/
abbrev ItemKey := Lex ((Lex (Int × Int)) × Lex (Int × Lex (Int × Lex (String × String))))

/-- The dataclass comparison tuple of a `JobItem`, as an `ItemKey`. -/
def itemKey (j : JobItem) : ItemKey :=
  toLex (toLex (-j.priority, j.created_at),
         toLex (j.priority, toLex (j.created_at, toLex (j.job_id, j.command))))

theorem itemLt_iff (a b : JobItem) : itemLt a b ↔ itemKey a < itemKey b := by
  unfold itemLt itemKey tupLt sortIndex
  simp only [Prod.Lex.lt_iff, toLex_inj, Prod.mk.injEq]

theorem itemKey_eq_iff (a b : JobItem) : itemKey a = itemKey b ↔
    (a.priority = b.priority ∧ a.created_at = b.created_at ∧
      a.job_id = b.job_id ∧ a.command = b.command) := by
  unfold itemKey
  simp only [toLex_inj, Prod.mk.injEq, neg_inj]
  tauto

theorem itemKey_le_priority {a b : JobItem} (h : itemKey a ≤ itemKey b) :
    b.priority ≤ a.priority ∧ (a.priority = b.priority → a.created_at ≤ b.created_at) := by
  rcases lt_or_eq_of_le h with h | h
  · unfold itemKey at h
    simp only [Prod.Lex.lt_iff, toLex_inj, Prod.mk.injEq] at h
    rcases h with (h | ⟨h1, h2⟩) | ⟨⟨h1, h2⟩, -⟩
    · constructor <;> omega
    · constructor <;> omega
    · constructor <;> omega
  · rw [itemKey_eq_iff] at h
    constructor <;> omega

section PyHeap

variable {α : Type} (lt : α → α → Prop) [DecidableRel lt]

/-- The while loop of CPython's `heapq._siftdown(heap, startpos, pos)`,
with the local variables inlined.  Both call sites in heapq use
`startpos = 0`, which is fixed here.  `newitem` is the value conceptually
stored at `pos` (the loop never reads `heap[pos]`); the loop walks
`pos` up through parents `(pos-1)//2`, moving each parent that compares
greater than `newitem` down, and finally stores `newitem`.  The `fuel`
argument bounds the number of iterations; since `pos` strictly decreases
it is always called with `fuel ≥ pos`, in which case fuel exhaustion
coincides with reaching `pos = 0` and the semantics match the source. -/
def siftdownAux (newitem : α) : Nat → List α → Nat → List α
  | 0, heap, pos => heap.set pos newitem
  | fuel+1, heap, pos =>
    if 0 < pos then
      if lt newitem (heap.getD ((pos-1)/2) newitem) then
        siftdownAux newitem fuel (heap.set pos (heap.getD ((pos-1)/2) newitem)) ((pos-1)/2)
      else heap.set pos newitem
    else heap.set pos newitem

/-- The while loop of CPython's `heapq._siftup(heap, pos)` (with its final
`_siftdown` call), local variables inlined: walk the smaller-child path
down to a leaf, shifting children up, then place `newitem` at the leaf
and sift it up.  The child comparison picks the right child exactly when
it exists and the left child is not smaller, as in the source.  `fuel`
bounds the iterations; the caller passes `fuel ≥ heap.length - pos`,
which cannot be exhausted before a leaf is reached. -/
def siftupAux (newitem : α) : Nat → List α → Nat → List α
  | 0, heap, pos => siftdownAux lt newitem pos (heap.set pos newitem) pos
  | fuel+1, heap, pos =>
    if 2*pos + 1 < heap.length then
      if 2*pos + 2 < heap.length ∧
          ¬ lt (heap.getD (2*pos+1) newitem) (heap.getD (2*pos+2) newitem) then
        siftupAux newitem fuel (heap.set pos (heap.getD (2*pos+2) newitem)) (2*pos+2)
      else
        siftupAux newitem fuel (heap.set pos (heap.getD (2*pos+1) newitem)) (2*pos+1)
    else siftdownAux lt newitem pos (heap.set pos newitem) pos

/-- CPython's `heapq.heappush`: append the item and sift it down from
position `len(heap)-1` toward the root. -/
def heappush (heap : List α) (item : α) : List α :=
  siftdownAux lt item heap.length (heap ++ [item]) heap.length

/-- CPython's `heapq.heappop`: remove the last element; if the heap is
then nonempty, the root is the return value, the last element is moved to
the root and sifted; popping an empty list raises in Python, modelled by
`none` (the caller `JobQueue.pop` guards this case). -/
def heappop : List α → Option (α × List α)
  | [] => none
  | [x] => some (x, [])
  | x :: y :: ys =>
    some (x, siftupAux lt ((y :: ys).getLast (List.cons_ne_nil y ys))
      (1 + (y :: ys).dropLast.length)
      ((y :: ys).getLast (List.cons_ne_nil y ys) :: (y :: ys).dropLast) 0)

/-- Repeatedly `heappop` until empty, collecting the results; `fuel` is
instantiated with the heap size, which bounds the number of pops. -/
def popAllAux : Nat → List α → List α
  | 0, _ => []
  | fuel+1, heap =>
    match heappop lt heap with
    | none => []
    | some (x, rest) => x :: popAllAux fuel rest

/-- Pop every element of the heap: the sequence of values a sequence of
`pop` calls returns. -/
def popAll (heap : List α) : List α := popAllAux lt heap.length heap

/-- Push a list of items, in order, into an initially empty heap. -/
def pushAll (xs : List α) : List α := xs.foldl (fun h x => heappush lt h x) []

end PyHeap

theorem getD_set_self {α : Type} :
    ∀ (l : List α) (i : Nat) (v d : α), i < l.length → (l.set i v).getD i d = v
  | _ :: _, 0, _, _, _ => rfl
  | _ :: t, i+1, v, d, h => getD_set_self t i v d (by simpa using h)

theorem getD_set_ne {α : Type} :
    ∀ (l : List α) (i j : Nat) (v d : α), i ≠ j → (l.set i v).getD j d = l.getD j d
  | [], _, _, _, _, _ => rfl
  | _ :: _, 0, 0, _, _, hne => absurd rfl hne
  | _ :: _, 0, _+1, _, _, _ => rfl
  | _ :: _, _+1, 0, _, _, _ => rfl
  | _ :: t, i+1, j+1, v, d, hne => getD_set_ne t i j v d (by omega)

theorem getD_congr {α : Type} (l : List α) {i : Nat} (d d2 : α) (h : i < l.length) :
    l.getD i d = l.getD i d2 := by
  rw [List.getD_eq_getElem l d h, List.getD_eq_getElem l d2 h]

theorem mset_set {α : Type} :
    ∀ (l : List α) (i : Nat) (v d : α), i < l.length →
      l.getD i d ::ₘ ((l.set i v : List α) : Multiset α) = v ::ₘ (l : Multiset α)
  | a :: t, 0, v, d, _ => by
      simpa using Multiset.cons_swap a v (t : Multiset α)
  | a :: t, i+1, v, d, h => by
      have ih := mset_set t i v d (by simpa using h)
      simp only [List.set, List.getD_cons_succ, ← Multiset.cons_coe]
      rw [Multiset.cons_swap, ih, Multiset.cons_swap]

theorem mset_set_set {α : Type} (heap : List α) (i j : Nat) (v d : α)
    (hi : i < heap.length) (hj : j < heap.length) (hij : i ≠ j) :
    (((heap.set i (heap.getD j d)).set j v : List α) : Multiset α) = ↑(heap.set i v) := by
  have hjl : j < (heap.set i (heap.getD j d)).length := by simpa using hj
  have e1 := mset_set (heap.set i (heap.getD j d)) j v d hjl
  rw [getD_set_ne heap i j _ d hij] at e1
  have e2 := mset_set heap i (heap.getD j d) d hi
  have e3 := mset_set heap i v d hi
  have : heap.getD i d ::ₘ heap.getD j d ::ₘ
      (((heap.set i (heap.getD j d)).set j v : List α) : Multiset α) =
      heap.getD i d ::ₘ heap.getD j d ::ₘ ((heap.set i v : List α) : Multiset α) := by
    rw [e1, Multiset.cons_swap, e2, Multiset.cons_swap v, ← e3, Multiset.cons_swap]
  exact (Multiset.cons_inj_right _).mp ((Multiset.cons_inj_right _).mp this)

theorem getD_append_lt {α : Type} :
    ∀ (l l2 : List α) (j : Nat) (d : α), j < l.length → (l ++ l2).getD j d = l.getD j d
  | _ :: _, _, 0, _, _ => rfl
  | _ :: t, l2, j+1, d, h => getD_append_lt t l2 j d (by simpa using h)

theorem getD_append_len {α : Type} :
    ∀ (l : List α) (x : α) (d : α), (l ++ [x]).getD l.length d = x
  | [], _, _ => rfl
  | _ :: t, x, d => getD_append_len t x d

theorem set_append_len {α : Type} :
    ∀ (l : List α) (x v : α), (l ++ [x]).set l.length v = l ++ [v]
  | [], _, _ => rfl
  | a :: t, x, v => congrArg (a :: ·) (set_append_len t x v)

theorem getD_dropLast {α : Type} (l : List α) (j : Nat) (d : α) (h : j + 1 < l.length) :
    l.dropLast.getD j d = l.getD j d := by
  have hj : j < l.dropLast.length := by simp [List.length_dropLast]; omega
  rw [List.getD_eq_getElem _ d hj, List.getD_eq_getElem _ d (by omega), List.getElem_dropLast]

/-- Binary-heap property of a list, with respect to a comparison key:
every element from position 1 on is at least its parent at `(i-1)/2`.
The default argument of `getD` is irrelevant at in-range positions and is
quantified so that the statement does not depend on it. -/
def IsHeap {α κ : Type} [LinearOrder κ] (key : α → κ) (l : List α) : Prop :=
  ∀ (i : Nat) (d : α), 0 < i → i < l.length →
    key (l.getD ((i-1)/2) d) ≤ key (l.getD i d)

/-- Invariant of the sift loops: every parent/child edge not touching
position `pos` (as the child or as the parent) is ordered. -/
def UpA {α κ : Type} [LinearOrder κ] (key : α → κ) (l : List α) (pos : Nat) : Prop :=
  ∀ (j : Nat) (d : α), 0 < j → j < l.length → j ≠ pos → (j-1)/2 ≠ pos →
    key (l.getD ((j-1)/2) d) ≤ key (l.getD j d)

/-- Invariant of the sift loops: the children of position `pos` are at
least the parent of `pos` (the skip-level edges across the hole). -/
def UpB {α κ : Type} [LinearOrder κ] (key : α → κ) (l : List α) (pos : Nat) : Prop :=
  ∀ (j : Nat) (d : α), 0 < j → j < l.length → (j-1)/2 = pos → 0 < pos →
    key (l.getD ((pos-1)/2) d) ≤ key (l.getD j d)

/-- Precondition of `_siftdown`: the children of `pos` are at least the
element stored at `pos`. -/
def UpC {α κ : Type} [LinearOrder κ] (key : α → κ) (l : List α) (pos : Nat) : Prop :=
  ∀ (j : Nat) (d : α), 0 < j → j < l.length → (j-1)/2 = pos →
    key (l.getD pos d) ≤ key (l.getD j d)

theorem siftdownAux_mset {α : Type} (lt : α → α → Prop) [DecidableRel lt] (newitem : α) :
    ∀ (fuel : Nat) (heap : List α) (pos : Nat), pos ≤ fuel → pos < heap.length →
      ((siftdownAux lt newitem fuel heap pos : List α) : Multiset α) = ↑(heap.set pos newitem) := by
  intro fuel
  induction fuel with
  | zero =>
    intro heap pos hf _
    have hp0 : pos = 0 := by omega
    subst hp0
    rfl
  | succ fuel ih =>
    intro heap pos hf hl
    rw [siftdownAux]
    by_cases h0 : 0 < pos
    · rw [if_pos h0]
      by_cases hcmp : lt newitem (heap.getD ((pos-1)/2) newitem)
      · rw [if_pos hcmp]
        rw [ih _ _ (by omega) (by simp only [List.length_set]; omega)]
        exact mset_set_set heap pos ((pos-1)/2) newitem newitem hl (by omega) (by omega)
      · rw [if_neg hcmp]
    · rw [if_neg h0]

theorem siftdownAux_length {α : Type} (lt : α → α → Prop) [DecidableRel lt] (newitem : α)
    (fuel : Nat) (heap : List α) (pos : Nat) (hf : pos ≤ fuel) (hl : pos < heap.length) :
    (siftdownAux lt newitem fuel heap pos).length = heap.length := by
  have h := congrArg Multiset.card (siftdownAux_mset lt newitem fuel heap pos hf hl)
  simpa using h

theorem siftdownAux_isHeap {α κ : Type} [LinearOrder κ] (key : α → κ)
    (lt : α → α → Prop) [DecidableRel lt] (hlt : ∀ a b, lt a b ↔ key a < key b) (newitem : α) :
    ∀ (fuel : Nat) (heap : List α) (pos : Nat), pos ≤ fuel → pos < heap.length →
      UpA key (heap.set pos newitem) pos →
      UpB key (heap.set pos newitem) pos →
      UpC key (heap.set pos newitem) pos →
      IsHeap key (siftdownAux lt newitem fuel heap pos) := by
  intro fuel
  induction fuel with
  | zero =>
    intro heap pos hf hl hA hB hC
    have hp0 : pos = 0 := by omega
    subst hp0
    intro i d hi0 hil
    by_cases hpj : (i-1)/2 = 0
    · rw [hpj]
      exact hC i d hi0 hil hpj
    · exact hA i d hi0 hil (by omega) hpj
  | succ fuel ih =>
    intro heap pos hf hl hA hB hC
    rw [siftdownAux]
    by_cases h0 : 0 < pos
    · rw [if_pos h0]
      by_cases hcmp : lt newitem (heap.getD ((pos-1)/2) newitem)
      · rw [if_pos hcmp]
        have hppl : (pos-1)/2 < heap.length := by omega
        have hppne : ¬ ((pos-1)/2 = pos) := by omega
        -- abbreviations via local haves about the rewritten lists
        have gG : ∀ (j : Nat) (d : α), j ≠ pos →
            (heap.set pos newitem).getD j d = heap.getD j d := by
          intro j d hj
          exact getD_set_ne heap pos j newitem d (fun e => hj e.symm)
        have gpos : ∀ d : α,
            ((heap.set pos (heap.getD ((pos-1)/2) newitem)).set ((pos-1)/2) newitem).getD pos d
              = heap.getD ((pos-1)/2) newitem := by
          intro d
          rw [getD_set_ne _ ((pos-1)/2) pos newitem d hppne,
            getD_set_self heap pos _ d hl]
        have gpp : ∀ d : α,
            ((heap.set pos (heap.getD ((pos-1)/2) newitem)).set ((pos-1)/2) newitem).getD
              ((pos-1)/2) d = newitem := by
          intro d
          exact getD_set_self _ ((pos-1)/2) newitem d (by simp only [List.length_set]; omega)
        have gother : ∀ (j : Nat) (d : α), j ≠ pos → j ≠ (pos-1)/2 →
            ((heap.set pos (heap.getD ((pos-1)/2) newitem)).set ((pos-1)/2) newitem).getD j d
              = heap.getD j d := by
          intro j d hj hj2
          rw [getD_set_ne _ ((pos-1)/2) j newitem d (fun e => hj2 e.symm),
            getD_set_ne heap pos j _ d (fun e => hj e.symm)]
        apply ih _ ((pos-1)/2) (by omega) (by simp only [List.length_set]; omega)
        · -- UpA of the recursive state
          intro j d hj0 hjl hjne hpjne
          have hjl2 : j < heap.length := by
            simpa only [List.length_set] using hjl
          by_cases hjpos : j = pos
          · exact (hpjne (by omega)).elim
          · by_cases hpjpos : (j-1)/2 = pos
            · rw [gother j d hjpos hjne, hpjpos, gpos d]
              have hb := hB j d hj0 (by simpa only [List.length_set] using hjl2) hpjpos h0
              rw [gG ((pos-1)/2) d hppne, gG j d hjpos,
                getD_congr heap d newitem hppl] at hb
              exact hb
            · rw [gother j d hjpos hjne, gother ((j-1)/2) d hpjpos hpjne]
              have ha := hA j d hj0 (by simpa only [List.length_set] using hjl2) hjpos hpjpos
              rw [gG ((j-1)/2) d hpjpos, gG j d hjpos] at ha
              exact ha
        · -- UpB of the recursive state
          intro j d hj0 hjl hpj hpp0
          have hjl2 : j < heap.length := by
            simpa only [List.length_set] using hjl
          have hgpne : ¬ (((pos-1)/2 - 1)/2 = pos) := by omega
          have hgpne2 : ¬ (((pos-1)/2 - 1)/2 = (pos-1)/2) := by omega
          have hstep : key (heap.getD (((pos-1)/2 - 1)/2) d)
              ≤ key (heap.getD ((pos-1)/2) d) := by
            have ha := hA ((pos-1)/2) d hpp0 (by simpa only [List.length_set] using hppl)
              hppne hgpne
            rw [gG (((pos-1)/2 - 1)/2) d hgpne, gG ((pos-1)/2) d hppne] at ha
            exact ha
          by_cases hjpos : j = pos
          · rw [hjpos, gother (((pos-1)/2 - 1)/2) d hgpne hgpne2, gpos d]
            calc key (heap.getD (((pos-1)/2 - 1)/2) d) ≤ key (heap.getD ((pos-1)/2) d) := hstep
              _ = key (heap.getD ((pos-1)/2) newitem) := by rw [getD_congr heap d newitem hppl]
          · have hjpp : j ≠ (pos-1)/2 := by omega
            rw [gother (((pos-1)/2 - 1)/2) d hgpne hgpne2, gother j d hjpos hjpp]
            have ha := hA j d hj0 (by simpa only [List.length_set] using hjl2) hjpos
              (by omega)
            rw [gG ((j-1)/2) d (by omega), gG j d hjpos, hpj] at ha
            exact le_trans hstep ha
        · -- UpC of the recursive state
          intro j d hj0 hjl hpj
          have hjl2 : j < heap.length := by
            simpa only [List.length_set] using hjl
          rw [gpp d]
          have hnewlt : key newitem < key (heap.getD ((pos-1)/2) newitem) := (hlt _ _).mp hcmp
          by_cases hjpos : j = pos
          · rw [hjpos, gpos d]
            exact le_of_lt hnewlt
          · have hjpp : j ≠ (pos-1)/2 := by omega
            rw [gother j d hjpos hjpp]
            have ha := hA j d hj0 (by simpa only [List.length_set] using hjl2) hjpos (by omega)
            rw [gG ((j-1)/2) d (by omega), gG j d hjpos, hpj,
              getD_congr heap d newitem hppl] at ha
            exact le_trans (le_of_lt hnewlt) ha
      · -- exit: the comparison does not hold, result is heap.set pos newitem
        rw [if_neg hcmp]
        intro i d hi0 hil
        by_cases hji : i = pos
        · subst hji
          rw [getD_set_self heap i newitem d hl,
            getD_set_ne heap i ((i-1)/2) newitem d (by omega),
            getD_congr heap d newitem (by omega)]
          exact le_of_not_lt (fun hcon => hcmp ((hlt _ _).mpr hcon))
        · by_cases hpj : (i-1)/2 = pos
          · rw [hpj]
            exact hC i d hi0 hil hpj
          · exact hA i d hi0 hil hji hpj
    · -- pos = 0: loop does not run
      rw [if_neg h0]
      intro i d hi0 hil
      by_cases hpj : (i-1)/2 = pos
      · rw [hpj]
        exact hC i d hi0 hil hpj
      · exact hA i d hi0 hil (by omega) hpj

theorem mset_concat {α : Type} :
    ∀ (l : List α) (x : α), ((l ++ [x] : List α) : Multiset α) = x ::ₘ ↑l
  | [], _ => rfl
  | a :: t, x => by
    simp only [List.cons_append, ← Multiset.cons_coe, mset_concat t x, Multiset.cons_swap]

theorem siftupAux_mset {α : Type} (lt : α → α → Prop) [DecidableRel lt] (newitem : α) :
    ∀ (fuel : Nat) (heap : List α) (pos : Nat), pos < heap.length →
      ((siftupAux lt newitem fuel heap pos : List α) : Multiset α) = ↑(heap.set pos newitem) := by
  intro fuel
  induction fuel with
  | zero =>
    intro heap pos hl
    rw [siftupAux,
      siftdownAux_mset lt newitem pos _ pos le_rfl (by simp only [List.length_set]; omega),
      List.set_set]
  | succ fuel ih =>
    intro heap pos hl
    rw [siftupAux]
    by_cases h1 : 2*pos + 1 < heap.length
    · rw [if_pos h1]
      by_cases h2 : 2*pos + 2 < heap.length ∧
          ¬ lt (heap.getD (2*pos+1) newitem) (heap.getD (2*pos+2) newitem)
      · rw [if_pos h2, ih _ (2*pos+2) (by simp only [List.length_set]; omega)]
        exact mset_set_set heap pos (2*pos+2) newitem newitem hl h2.1 (by omega)
      · rw [if_neg h2, ih _ (2*pos+1) (by simp only [List.length_set]; omega)]
        exact mset_set_set heap pos (2*pos+1) newitem newitem hl h1 (by omega)
    · rw [if_neg h1,
        siftdownAux_mset lt newitem pos _ pos le_rfl (by simp only [List.length_set]; omega),
        List.set_set]

/-- The heap property is restored by the trailing `_siftdown` call of
`_siftup` (and by `_siftdown` run at a childless position). -/
theorem exit_call_isHeap {α κ : Type} [LinearOrder κ] (key : α → κ)
    (lt : α → α → Prop) [DecidableRel lt] (hlt : ∀ a b, lt a b ↔ key a < key b)
    (newitem : α) (heap : List α) (pos : Nat)
    (hleaf : ¬ (2*pos + 1 < heap.length)) (hl : pos < heap.length)
    (hA : UpA key heap pos) (hB : UpB key heap pos) :
    IsHeap key (siftdownAux lt newitem pos (heap.set pos newitem) pos) := by
  apply siftdownAux_isHeap key lt hlt newitem pos _ pos le_rfl
    (by simp only [List.length_set]; omega)
  · intro j d hj0 hjl hjne hpjne
    have hjl2 : j < heap.length := by simpa only [List.length_set] using hjl
    rw [List.set_set, getD_set_ne heap pos j newitem d (fun e => hjne e.symm),
      getD_set_ne heap pos ((j-1)/2) newitem d (fun e => hpjne e.symm)]
    exact hA j d hj0 hjl2 hjne hpjne
  · intro j d hj0 hjl hpj hpos0
    have hjl2 : j < heap.length := by simpa only [List.length_set] using hjl
    have hppne : ¬ ((pos-1)/2 = pos) := by omega
    have hjne : ¬ (j = pos) := by omega
    rw [List.set_set, getD_set_ne heap pos j newitem d (fun e => hjne e.symm),
      getD_set_ne heap pos ((pos-1)/2) newitem d (fun e => hppne e.symm)]
    exact hB j d hj0 hjl2 hpj hpos0
  · intro j d hj0 hjl hpj
    have hjl2 : j < heap.length := by simpa only [List.length_set] using hjl
    exact absurd hpj (by omega)

/-- One step of the `_siftup` walk preserves the hole invariants: moving
the smaller child `c` of `pos` up into `pos` makes `c` the new hole. -/
theorem walk_step_inv {α κ : Type} [LinearOrder κ] (key : α → κ)
    (heap : List α) (pos c : Nat) (d0 : α)
    (hl : pos < heap.length) (hcl : c < heap.length)
    (hc : c = 2*pos+1 ∨ c = 2*pos+2)
    (hmin : ∀ (s : Nat) (d : α), (s = 2*pos+1 ∨ s = 2*pos+2) → s < heap.length →
      key (heap.getD c d) ≤ key (heap.getD s d))
    (hA : UpA key heap pos) (hB : UpB key heap pos) :
    UpA key (heap.set pos (heap.getD c d0)) c ∧ UpB key (heap.set pos (heap.getD c d0)) c := by
  have hcpos : ¬ (c = pos) := by omega
  have gpos : ∀ d : α, (heap.set pos (heap.getD c d0)).getD pos d = heap.getD c d0 :=
    fun d => getD_set_self heap pos _ d hl
  have gother : ∀ (j : Nat) (d : α), ¬ (j = pos) →
      (heap.set pos (heap.getD c d0)).getD j d = heap.getD j d :=
    fun j d hj => getD_set_ne heap pos j _ d (fun e => hj e.symm)
  constructor
  · intro j d hj0 hjl hjne hpjne
    have hjl2 : j < heap.length := by simpa only [List.length_set] using hjl
    by_cases hjpos : j = pos
    · have hp0 : 0 < pos := by omega
      have hppne : ¬ ((pos-1)/2 = pos) := by omega
      rw [hjpos, gpos d, gother ((pos-1)/2) d hppne]
      have hb := hB c d (by omega) hcl (by omega) hp0
      rw [getD_congr heap d0 d hcl]
      exact hb
    · by_cases hpjpos : (j-1)/2 = pos
      · rw [gother j d hjpos, hpjpos, gpos d]
        have hm := hmin j d (by omega) hjl2
        rw [getD_congr heap d0 d hcl]
        exact hm
      · rw [gother j d hjpos, gother ((j-1)/2) d hpjpos]
        exact hA j d hj0 hjl2 hjpos hpjpos
  · intro j d hj0 hjl hpj hc0
    have hjl2 : j < heap.length := by simpa only [List.length_set] using hjl
    have hcp : (c-1)/2 = pos := by omega
    have hjpos : ¬ (j = pos) := by omega
    rw [hcp, gpos d, gother j d hjpos, getD_congr heap d0 d hcl]
    have ha := hA j d hj0 hjl2 hjpos (by omega)
    rw [hpj] at ha
    exact ha

theorem siftupAux_isHeap {α κ : Type} [LinearOrder κ] (key : α → κ)
    (lt : α → α → Prop) [DecidableRel lt] (hlt : ∀ a b, lt a b ↔ key a < key b) (newitem : α) :
    ∀ (fuel : Nat) (heap : List α) (pos : Nat),
      heap.length ≤ fuel + pos + 1 → pos < heap.length →
      UpA key heap pos → UpB key heap pos →
      IsHeap key (siftupAux lt newitem fuel heap pos) := by
  intro fuel
  induction fuel with
  | zero =>
    intro heap pos hfl hl hA hB
    exact exit_call_isHeap key lt hlt newitem heap pos (by omega) hl hA hB
  | succ fuel ih =>
    intro heap pos hfl hl hA hB
    rw [siftupAux]
    by_cases h1 : 2*pos + 1 < heap.length
    · rw [if_pos h1]
      by_cases h2 : 2*pos + 2 < heap.length ∧
          ¬ lt (heap.getD (2*pos+1) newitem) (heap.getD (2*pos+2) newitem)
      · rw [if_pos h2]
        have hr : key (heap.getD (2*pos+2) newitem) ≤ key (heap.getD (2*pos+1) newitem) :=
          le_of_not_lt (fun hcon => h2.2 ((hlt _ _).mpr hcon))
        have hmin : ∀ (s : Nat) (d : α), (s = 2*pos+1 ∨ s = 2*pos+2) → s < heap.length →
            key (heap.getD (2*pos+2) d) ≤ key (heap.getD s d) := by
          intro s d hs hsl
          have hsl1 : 2*pos+1 < heap.length := by omega
          rcases hs with hs | hs
          · rw [hs, getD_congr heap d newitem h2.1, getD_congr heap d newitem hsl1]
            exact hr
          · rw [hs]
        have hstep := walk_step_inv key heap pos (2*pos+2) newitem hl h2.1 (Or.inr rfl)
          hmin hA hB
        exact ih _ (2*pos+2) (by simp only [List.length_set]; omega)
          (by simp only [List.length_set]; omega) hstep.1 hstep.2
      · rw [if_neg h2]
        have hmin : ∀ (s : Nat) (d : α), (s = 2*pos+1 ∨ s = 2*pos+2) → s < heap.length →
            key (heap.getD (2*pos+1) d) ≤ key (heap.getD s d) := by
          intro s d hs hsl
          rcases hs with hs | hs
          · rw [hs]
          · have hsl2 : 2*pos+2 < heap.length := by omega
            rw [hs, getD_congr heap d newitem hsl2, getD_congr heap d newitem h1]
            rcases not_and_or.mp h2 with hn | hn
            · exact absurd hsl2 hn
            · exact le_of_lt ((hlt _ _).mp (not_not.mp hn))
        have hstep := walk_step_inv key heap pos (2*pos+1) newitem hl h1 (Or.inl rfl)
          hmin hA hB
        exact ih _ (2*pos+1) (by simp only [List.length_set]; omega)
          (by simp only [List.length_set]; omega) hstep.1 hstep.2
    · rw [if_neg h1]
      exact exit_call_isHeap key lt hlt newitem heap pos h1 hl hA hB

theorem heappush_mset {α : Type} (lt : α → α → Prop) [DecidableRel lt]
    (heap : List α) (item : α) :
    ((heappush lt heap item : List α) : Multiset α) = item ::ₘ ↑heap := by
  unfold heappush
  rw [siftdownAux_mset lt item heap.length _ heap.length le_rfl
      (by simp only [List.length_append, List.length_cons, List.length_nil]; omega),
    set_append_len, mset_concat]

theorem heappush_isHeap {α κ : Type} [LinearOrder κ] (key : α → κ)
    (lt : α → α → Prop) [DecidableRel lt] (hlt : ∀ a b, lt a b ↔ key a < key b)
    (heap : List α) (item : α) (hh : IsHeap key heap) :
    IsHeap key (heappush lt heap item) := by
  unfold heappush
  have hlen : (heap ++ [item]).length = heap.length + 1 := by
    simp only [List.length_append, List.length_cons, List.length_nil]
  apply siftdownAux_isHeap key lt hlt item heap.length _ heap.length le_rfl (by omega)
  · intro j d hj0 hjl hjne hpjne
    rw [set_append_len] at hjl ⊢
    have hjlt : j < heap.length := by
      rw [hlen] at hjl
      omega
    rw [getD_append_lt heap [item] j d hjlt,
      getD_append_lt heap [item] ((j-1)/2) d (by omega)]
    exact hh j d hj0 hjlt
  · intro j d hj0 hjl hpj hpos0
    rw [set_append_len, hlen] at hjl
    exact absurd hpj (by omega)
  · intro j d hj0 hjl hpj
    rw [set_append_len, hlen] at hjl
    exact absurd hpj (by omega)

theorem heappop_isSome {α : Type} (lt : α → α → Prop) [DecidableRel lt] :
    ∀ (heap : List α), heap ≠ [] → ∃ x rest, heappop lt heap = some (x, rest)
  | [], h => absurd rfl h
  | [x], _ => ⟨x, [], rfl⟩
  | _ :: _ :: _, _ => ⟨_, _, rfl⟩

theorem heappop_head {α : Type} (lt : α → α → Prop) [DecidableRel lt] :
    ∀ (heap : List α) (x : α) (rest : List α), heappop lt heap = some (x, rest) →
      heap.head? = some x
  | [], x, rest, h => by
      simp only [heappop] at h
      exact Option.noConfusion h
  | [a], x, rest, h => by
      simp only [heappop, Option.some.injEq, Prod.mk.injEq] at h
      simp [h.1]
  | a :: b :: t, x, rest, h => by
      simp only [heappop, Option.some.injEq, Prod.mk.injEq] at h
      simp [h.1]

theorem heappop_mset {α : Type} (lt : α → α → Prop) [DecidableRel lt] :
    ∀ (heap : List α) (x : α) (rest : List α), heappop lt heap = some (x, rest) →
      (heap : Multiset α) = x ::ₘ ↑rest
  | [], x, rest, h => by
      simp only [heappop] at h
      exact Option.noConfusion h
  | [a], x, rest, h => by
      simp only [heappop, Option.some.injEq, Prod.mk.injEq] at h
      rw [← h.1, ← h.2]
      rfl
  | a :: b :: t, x, rest, h => by
      simp only [heappop, Option.some.injEq, Prod.mk.injEq] at h
      rw [← h.1, ← h.2,
        siftupAux_mset lt _ _ _ 0 (by simp only [List.length_cons]; omega),
        List.set_cons_zero]
      simp only [← Multiset.cons_coe]
      congr 1
      rw [Multiset.cons_coe]
      conv_lhs => rw [← List.dropLast_append_getLast (List.cons_ne_nil b t)]
      rw [mset_concat]

theorem heappop_length {α : Type} (lt : α → α → Prop) [DecidableRel lt]
    (heap : List α) (x : α) (rest : List α) (h : heappop lt heap = some (x, rest)) :
    heap.length = rest.length + 1 := by
  have hc := congrArg Multiset.card (heappop_mset lt heap x rest h)
  simpa using hc

theorem heappop_isHeap {α κ : Type} [LinearOrder κ] (key : α → κ)
    (lt : α → α → Prop) [DecidableRel lt] (hlt : ∀ a b, lt a b ↔ key a < key b) :
    ∀ (heap : List α) (x : α) (rest : List α), IsHeap key heap →
      heappop lt heap = some (x, rest) → IsHeap key rest
  | [], x, rest, _, h => by
      simp only [heappop] at h
      exact Option.noConfusion h
  | [a], x, rest, _, h => by
      simp only [heappop, Option.some.injEq, Prod.mk.injEq] at h
      rw [← h.2]
      intro i d hi0 hil
      simp only [List.length_nil] at hil
      omega
  | a :: b :: t, x, rest, hh, h => by
      simp only [heappop, Option.some.injEq, Prod.mk.injEq] at h
      rw [← h.2]
      have hlenA : ((b :: t).getLast (List.cons_ne_nil b t) :: (b :: t).dropLast).length
          = (b :: t).length := by
        simp only [List.length_cons, List.length_dropLast]
        omega
      have htrans : ∀ (j : Nat) (d : α), 0 < j →
          j < ((b :: t).getLast (List.cons_ne_nil b t) :: (b :: t).dropLast).length →
          ((b :: t).getLast (List.cons_ne_nil b t) :: (b :: t).dropLast).getD j d
            = (a :: b :: t).getD j d := by
        intro j d hj0 hjl
        rw [hlenA] at hjl
        obtain ⟨j, rfl⟩ : ∃ k, j = k + 1 := ⟨j - 1, by omega⟩
        rw [List.getD_cons_succ, List.getD_cons_succ]
        exact getD_dropLast (b :: t) j d (by omega)
      apply siftupAux_isHeap key lt hlt _ _ _ 0 (by simp only [List.length_cons]; omega)
        (by simp)
      · intro j d hj0 hjl hjne hpjne
        have hju : 0 < (j-1)/2 := by omega
        rw [htrans j d hj0 hjl, htrans ((j-1)/2) d hju (by omega)]
        rw [hlenA] at hjl
        exact hh j d hj0 (by simp only [List.length_cons] at hjl ⊢; omega)
      · intro j d hj0 hjl hpj hpos0
        omega

theorem isHeap_nil {α κ : Type} [LinearOrder κ] (key : α → κ) :
    IsHeap key ([] : List α) := by
  intro i d hi0 hil
  simp only [List.length_nil] at hil
  omega

theorem isHeap_le_getD {α κ : Type} [LinearOrder κ] (key : α → κ)
    (l : List α) (hh : IsHeap key l) :
    ∀ (j : Nat) (d : α), j < l.length → key (l.getD 0 d) ≤ key (l.getD j d) := by
  intro j
  induction j using Nat.strong_induction_on with
  | _ j ih =>
    intro d hj
    rcases Nat.eq_zero_or_pos j with h0 | h0
    · rw [h0]
    · exact le_trans (ih ((j-1)/2) (by omega) d (by omega)) (hh j d h0 hj)

theorem isHeap_head_min {α κ : Type} [LinearOrder κ] (key : α → κ)
    (l : List α) (hh : IsHeap key l) (x : α) (hx : l.head? = some x) :
    ∀ y ∈ l, key x ≤ key y := by
  intro y hy
  obtain ⟨n, hn, he⟩ := List.mem_iff_getElem.mp hy
  have h0 : l.getD 0 y = x := by
    cases l with
    | nil => simp at hx
    | cons a t =>
      simp only [List.head?_cons, Option.some.injEq] at hx
      simp [hx]
  have hle := isHeap_le_getD key l hh n y hn
  rw [h0, List.getD_eq_getElem l y hn, he] at hle
  exact hle

theorem popAllAux_spec {α κ : Type} [LinearOrder κ] (key : α → κ)
    (lt : α → α → Prop) [DecidableRel lt] (hlt : ∀ a b, lt a b ↔ key a < key b) :
    ∀ (fuel : Nat) (heap : List α), heap.length ≤ fuel → IsHeap key heap →
      ((popAllAux lt fuel heap : List α) : Multiset α) = ↑heap ∧
        List.Pairwise (fun a b => key a ≤ key b) (popAllAux lt fuel heap) := by
  intro fuel
  induction fuel with
  | zero =>
    intro heap hf _
    have hnil : heap = [] := by
      cases heap with
      | nil => rfl
      | cons a t => simp at hf
    subst hnil
    exact ⟨rfl, List.Pairwise.nil⟩
  | succ fuel ih =>
    intro heap hf hh
    rcases heap with _ | ⟨a, t⟩
    · exact ⟨rfl, List.Pairwise.nil⟩
    · obtain ⟨x, rest, hpop⟩ := heappop_isSome lt (a :: t) (by simp)
      have hxa : x = a := by
        have hhd := heappop_head lt (a :: t) x rest hpop
        simp only [List.head?_cons, Option.some.injEq] at hhd
        exact hhd.symm
      have hms := heappop_mset lt (a :: t) x rest hpop
      have hrh := heappop_isHeap key lt hlt (a :: t) x rest hh hpop
      have hlen := heappop_length lt (a :: t) x rest hpop
      have ihr := ih rest (by simp only [List.length_cons] at hf hlen ⊢; omega) hrh
      have hunf : popAllAux lt (fuel+1) (a :: t) = x :: popAllAux lt fuel rest := by
        simp only [popAllAux, hpop]
      rw [hunf]
      constructor
      · rw [← Multiset.cons_coe, ihr.1, ← hms]
      · rw [List.pairwise_cons]
        refine ⟨?_, ihr.2⟩
        intro y hy
        have hyr : y ∈ rest := by
          have hperm := Multiset.coe_eq_coe.mp ihr.1
          exact (hperm.mem_iff).mp hy
        have hyh : y ∈ a :: t := by
          rw [← Multiset.mem_coe, hms]
          exact Multiset.mem_cons_of_mem (by simpa using hyr)
        exact isHeap_head_min key (a :: t) hh x (by simp [hxa]) y hyh

theorem pushAll_isHeap {α κ : Type} [LinearOrder κ] (key : α → κ)
    (lt : α → α → Prop) [DecidableRel lt] (hlt : ∀ a b, lt a b ↔ key a < key b) :
    ∀ (xs q : List α), IsHeap key q →
      IsHeap key (xs.foldl (fun h x => heappush lt h x) q)
  | [], _, hq => hq
  | a :: t, q, hq =>
      pushAll_isHeap key lt hlt t (heappush lt q a) (heappush_isHeap key lt hlt q a hq)

theorem pushAll_mset {α : Type} (lt : α → α → Prop) [DecidableRel lt] :
    ∀ (xs q : List α),
      ((xs.foldl (fun h x => heappush lt h x) q : List α) : Multiset α) = ↑q + ↑xs
  | [], q => by simp
  | a :: t, q => by
      rw [List.foldl_cons, pushAll_mset lt t (heappush lt q a), heappush_mset]
      simp only [← Multiset.cons_coe]
      rw [Multiset.cons_add, Multiset.add_cons]

theorem popAll_pushAll {α κ : Type} [LinearOrder κ] (key : α → κ)
    (lt : α → α → Prop) [DecidableRel lt] (hlt : ∀ a b, lt a b ↔ key a < key b)
    (xs : List α) :
    ((popAll lt (pushAll lt xs) : List α) : Multiset α) = ↑xs ∧
      List.Pairwise (fun a b => key a ≤ key b) (popAll lt (pushAll lt xs)) := by
  have hh : IsHeap key (pushAll lt xs) := pushAll_isHeap key lt hlt xs [] (isHeap_nil key)
  have hm : ((pushAll lt xs : List α) : Multiset α) = ↑xs := by
    have h := pushAll_mset lt xs []
    simpa using h
  have hspec := popAllAux_spec key lt hlt (pushAll lt xs).length (pushAll lt xs) le_rfl hh
  exact ⟨hspec.1.trans hm, hspec.2⟩

/-- Python `dict.get` on the key/value pairs of a parsed JSON object
(`json.load` has already collapsed duplicate keys, so the pairs have
distinct keys and first-match lookup is the dictionary lookup). -/
def lookup : List (String × Json) → String → Option Json
  | [], _ => none
  | (k, v) :: rest, s => if k = s then some v else lookup rest s

/-- Embedding of `load_job_file(path)`.  The filesystem is passed in
explicitly: `stem` is `path.stem`, `mtime` is `path.stat().st_mtime`, and
`content` is the outcome of `json.load` on the file (`none` when the file
is not valid JSON, in which case `json.load` raises and the load fails).
Failures (`LoadError` situations) are `none`: malformed content,
non-object content, a `priority` that `int()` rejects, and a missing
`command` (`data["command"]` raises `KeyError`).  The dataclass
annotations type `job_id` and `command` as `str`; a descriptor carrying a
non-string value in those fields is outside the typed model and is
mapped to a failed load (Python would accept it and fail later, inside
the untyped heap comparison or subprocess call). -/
def load_job_file (stem : String) (mtime : Int) (content : Option Json) : Option JobItem := do
  let data ← content
  let fields ← match data with
    | Json.jobj fs => some fs
    | _ => none
  let job_id ← match lookup fields "id" with
    | none => some stem
    | some (Json.jstr s) => some s
    | some _ => none
  let priority ← pyInt ((lookup fields "priority").getD (Json.jint 0))
  let command ← match lookup fields "command" with
    | some (Json.jstr s) => some s
    | _ => none
  some { priority := priority, created_at := mtime, job_id := job_id,
         command := command, raw := data }

/-- The `JobQueue` class: a wrapper around a Python list managed by
`heapq`. -/
structure JobQueue where
  _queue : List JobItem

/-- `JobQueue.push`: `heappush(self._queue, job)` (the log line it also
emits is not part of the queue state). -/
def JobQueue.push (q : JobQueue) (job : JobItem) : JobQueue :=
  ⟨heappush itemLt q._queue job⟩

/-- `JobQueue.pop`: `None` on an empty queue (leaving it unchanged),
otherwise `heappop(self._queue)`. -/
def JobQueue.pop (q : JobQueue) : Option JobItem × JobQueue :=
  match heappop itemLt q._queue with
  | none => (none, q)
  | some (x, rest) => (some x, ⟨rest⟩)

/-- `len(queue)`. -/
def JobQueue.len (q : JobQueue) : Nat := q._queue.length

/-- One descriptor file of the watched directory, as `scan_jobs_directory`
sees it: the files matched by `glob("*.json")`, each with its stem, its
mtime, and its parsed content (`none` for files that are not valid
JSON). -/
structure JobFile where
  stem : String
  mtime : Int
  content : Option Json

/-- Embedding of `scan_jobs_directory(queue)`: for each descriptor file,
try `load_job_file`; on success push the job and delete the file
(`path.unlink()`); on any exception leave the file in place and keep
going.  Returns the files remaining in the directory and the new queue
state. -/
def scan_jobs_directory : List JobFile → JobQueue → List JobFile × JobQueue
  | [], queue => ([], queue)
  | f :: rest, queue =>
    match load_job_file f.stem f.mtime f.content with
    | some job_item =>
        scan_jobs_directory rest (queue.push job_item)
    | none =>
        let r := scan_jobs_directory rest queue
        (f :: r.1, r.2)

/-- Outcome of `subprocess.run(job.command, shell=True, ...)`:
the shell completed with an exit status (with captured stdout/stderr),
or the subprocess could not be launched at all (an `OSError`-like
exception). -/
inductive RunOutcome where
  | completed (returncode : Int) (stdout stderr : String)
  | launchFailure (msg : String)

/-- The terminal record `process_job` logs for a job. -/
inductive JobResult where
  | success (stdout stderr : String)
  | failure (returncode : Int) (stdout stderr : String)
  | unexpectedError (msg : String)

/-- Embedding of `process_job(job)`.  `subprocess.run(..., check=True)`
raises `CalledProcessError` exactly when the exit status is nonzero; the
function catches it and logs `[FAILED]` with the exit code and captured
output; any other exception is caught by the generic handler and logged
as an unexpected error; a zero exit status logs `[SUCCESS]` with the
captured output.  Every path is caught, so the function always returns
normally; the returned value is the terminal record it logs. -/
def process_job (_job : JobItem) (outcome : RunOutcome) : JobResult :=
  match outcome with
  | RunOutcome.completed rc out err =>
      if rc = 0 then JobResult.success out err else JobResult.failure rc out err
  | RunOutcome.launchFailure m => JobResult.unexpectedError m

/-- The `GracefulKiller` class: `_kill_now` starts `False`; the handler
installed for SIGINT/SIGTERM only sets it to `True`. -/
structure GracefulKiller where
  _kill_now : Bool

/-- `GracefulKiller.__init__` state. -/
def GracefulKiller.init : GracefulKiller := ⟨false⟩

/-- `GracefulKiller.exit_gracefully`: sets the flag. -/
def GracefulKiller.exit_gracefully (_k : GracefulKiller) : GracefulKiller := ⟨true⟩

/-- The `kill_now` property. -/
def GracefulKiller.kill_now (k : GracefulKiller) : Bool := k._kill_now

/-- The module constant `POLL_INTERVAL = 1.0` (seconds), which is what
`main` passes to `time.sleep` when the queue is empty. -/
def POLL_INTERVAL : Rat := 1

/-- Embedding of `parse_args()`: the value of the `--poll-interval`
option when it is given on the command line, else its default `1.0`.
Note that `main()` never calls this function. -/
def parse_args (pollIntervalArg : Option Rat) : Rat :=
  pollIntervalArg.getD 1

/-- Observable events of one run of the main loop (the log lines the
loop emits, and the idle sleep). -/
inductive Event where
  | started (job_id : String) (command : String)
  | finished (job_id : String) (result : JobResult)
  | slept (seconds : Rat)
  | stoppedClean

/-- State of the main loop between iterations: the files currently in
the watched directory, the in-memory queue, the trace of events so far,
and whether the `while not killer.kill_now` loop has exited. -/
structure LoopState where
  files : List JobFile
  queue : JobQueue
  log : List Event
  stopped : Bool

/-- External inputs consumed by one iteration of the loop: the value of
`killer.kill_now` read at the top of the iteration, the descriptor files
external producers have dropped into the directory since the previous
scan, and the behaviour of the shell for whatever job is executed. -/
structure StepInput where
  killNow : Bool
  newFiles : List JobFile
  run : JobItem → RunOutcome

/-- One iteration of `main`'s `while not killer.kill_now` loop.  If the
loop has already exited, nothing happens.  If the shutdown flag is
observed at the top of the iteration, the loop exits and logs the final
message.  Otherwise the iteration scans the directory, pops the
highest-priority job and either executes it to completion --- recording
its start and its terminal result within the same iteration, the
shutdown flag not being consulted again before both are recorded --- or,
when no job is available, sleeps for `POLL_INTERVAL` seconds. -/
def loopStep (inp : StepInput) (s : LoopState) : LoopState :=
  if s.stopped then s
  else if inp.killNow then
    { s with stopped := true, log := s.log ++ [Event.stoppedClean] }
  else
    let scanned := scan_jobs_directory (s.files ++ inp.newFiles) s.queue
    match scanned.2.pop with
    | (some job, q2) =>
        { files := scanned.1, queue := q2,
          log := s.log ++ [Event.started job.job_id job.command,
                           Event.finished job.job_id (process_job job (inp.run job))],
          stopped := false }
    | (none, q2) =>
        { files := scanned.1, queue := q2,
          log := s.log ++ [Event.slept POLL_INTERVAL], stopped := false }

/-- Run the loop over a sequence of per-iteration inputs. -/
def loopRun (s : LoopState) (inps : List StepInput) : LoopState :=
  inps.foldl (fun t i => loopStep i t) s

theorem loopStep_absorb (inp : StepInput) (s : LoopState) (h : s.stopped = true) :
    loopStep inp s = s := by
  simp [loopStep, h]

theorem loopRun_absorb (inps : List StepInput) (s : LoopState) (h : s.stopped = true) :
    loopRun s inps = s := by
  induction inps with
  | nil => rfl
  | cons i t ih =>
    show loopRun (loopStep i s) t = s
    rw [loopStep_absorb i s h, ih]

theorem loopStep_kill (inp : StepInput) (s : LoopState)
    (hs : s.stopped = false) (hk : inp.killNow = true) :
    loopStep inp s = { s with stopped := true, log := s.log ++ [Event.stoppedClean] } := by
  simp [loopStep, hs, hk]

theorem loopStep_dispatch (inp : StepInput) (s : LoopState) (job : JobItem) (q2 : JobQueue)
    (hs : s.stopped = false) (hk : inp.killNow = false)
    (hpop : (scan_jobs_directory (s.files ++ inp.newFiles) s.queue).2.pop = (some job, q2)) :
    loopStep inp s =
      { files := (scan_jobs_directory (s.files ++ inp.newFiles) s.queue).1,
        queue := q2,
        log := s.log ++ [Event.started job.job_id job.command,
                         Event.finished job.job_id (process_job job (inp.run job))],
        stopped := false } := by
  simp only [loopStep, hs, hk, Bool.false_eq_true, if_false, hpop]

theorem loopStep_idle (inp : StepInput) (s : LoopState) (q2 : JobQueue)
    (hs : s.stopped = false) (hk : inp.killNow = false)
    (hpop : (scan_jobs_directory (s.files ++ inp.newFiles) s.queue).2.pop = (none, q2)) :
    loopStep inp s =
      { files := (scan_jobs_directory (s.files ++ inp.newFiles) s.queue).1,
        queue := q2,
        log := s.log ++ [Event.slept POLL_INTERVAL],
        stopped := false } := by
  simp only [loopStep, hs, hk, Bool.false_eq_true, if_false, hpop]

/-- C1 (amended: `pop` returns a minimum, not a maximum, of the stored
key `(-priority, created_at)` --- equivalently, a record of maximal
priority): for every sequence of pushes followed by pops, the pop
sequence is a permutation of the pushed records and is sorted by the
dataclass comparison key, so each pop returns a smallest stored key
among the records then in the queue; consequently priorities come out
in non-increasing order and, among records of equal priority, the one
with the earlier `created_at` (submittedAt) is returned first. -/
theorem pop_order_spec (xs : List JobItem) :
    ((popAll itemLt (pushAll itemLt xs) : List JobItem) : Multiset JobItem) = ↑xs ∧
    List.Pairwise (fun a b => itemKey a ≤ itemKey b) (popAll itemLt (pushAll itemLt xs)) ∧
    List.Pairwise (fun a b => b.priority ≤ a.priority ∧
      (a.priority = b.priority → a.created_at ≤ b.created_at))
      (popAll itemLt (pushAll itemLt xs)) := by
  obtain ⟨h1, h2⟩ := popAll_pushAll itemKey itemLt itemLt_iff xs
  exact ⟨h1, h2, h2.imp (fun h => itemKey_le_priority h)⟩

/-- C1 counterexample to the claim as stated: with a priority-1 job and
a priority-10 job stored, `pop` returns the priority-10 job, whose
stored key `(-10, 0)` is strictly below the other stored key `(-1, 0)`:
the popped element is a strict minimum of the stored key, not a
maximum. -/
theorem pop_returns_min_key_not_max :
    (heappop itemLt (pushAll itemLt
      [⟨1, 0, "low", "x", Json.jnull⟩, ⟨10, 0, "high", "y", Json.jnull⟩])).map
      (fun p => p.1.priority) = some 10 ∧
    tupLt (sortIndex (⟨10, 0, "high", "y", Json.jnull⟩ : JobItem))
      (sortIndex (⟨1, 0, "low", "x", Json.jnull⟩ : JobItem)) ∧
    ¬ tupLt (sortIndex (⟨1, 0, "low", "x", Json.jnull⟩ : JobItem))
      (sortIndex (⟨10, 0, "high", "y", Json.jnull⟩ : JobItem)) := by
  refine ⟨rfl, by decide, by decide⟩

/-- C8: `pop` on an empty queue returns `None` and leaves the queue
unchanged, rather than raising; on any nonempty queue `pop` returns an
element and removes exactly that element from the queue. -/
theorem pop_empty_spec :
    (JobQueue.pop ⟨[]⟩ = (none, ⟨[]⟩)) ∧
    (∀ q : JobQueue, q._queue ≠ [] → ∃ x q2, q.pop = (some x, q2) ∧
      (q._queue : Multiset JobItem) = x ::ₘ ↑q2._queue) := by
  constructor
  · rfl
  · intro q hne
    obtain ⟨x, rest, hpop⟩ := heappop_isSome itemLt q._queue hne
    refine ⟨x, ⟨rest⟩, ?_, heappop_mset itemLt q._queue x rest hpop⟩
    unfold JobQueue.pop
    rw [hpop]

/-- C8 witness: the nonempty-queue clause applied to a one-element
queue. -/
theorem pop_empty_spec_witness :
    (⟨[⟨3, 0, "a", "c", Json.jnull⟩]⟩ : JobQueue)._queue ≠ [] ∧
    ∃ x q2, (⟨[⟨3, 0, "a", "c", Json.jnull⟩]⟩ : JobQueue).pop = (some x, q2) ∧
      ((⟨[⟨3, 0, "a", "c", Json.jnull⟩]⟩ : JobQueue)._queue : Multiset JobItem)
        = x ::ₘ ↑q2._queue :=
  ⟨by simp, pop_empty_spec.2 ⟨[⟨3, 0, "a", "c", Json.jnull⟩]⟩ (by simp)⟩

/-- C2: a descriptor with string `id`, integer `priority` and string
`command` loads to a record with exactly those values (with `created_at`
the file's mtime and `raw` the whole descriptor); a descriptor without
`id` gets the file stem as id; a descriptor without `priority` gets
priority 0. -/
theorem load_roundtrip_defaults (stem : String) (mtime : Int)
    (fields : List (String × Json)) (i c : String) (p : Int) :
    (lookup fields "id" = some (Json.jstr i) →
      lookup fields "priority" = some (Json.jint p) →
      lookup fields "command" = some (Json.jstr c) →
      load_job_file stem mtime (some (Json.jobj fields)) =
        some ⟨p, mtime, i, c, Json.jobj fields⟩) ∧
    (lookup fields "id" = none →
      lookup fields "priority" = some (Json.jint p) →
      lookup fields "command" = some (Json.jstr c) →
      load_job_file stem mtime (some (Json.jobj fields)) =
        some ⟨p, mtime, stem, c, Json.jobj fields⟩) ∧
    (lookup fields "id" = some (Json.jstr i) →
      lookup fields "priority" = none →
      lookup fields "command" = some (Json.jstr c) →
      load_job_file stem mtime (some (Json.jobj fields)) =
        some ⟨0, mtime, i, c, Json.jobj fields⟩) := by
  refine ⟨?_, ?_, ?_⟩ <;> intro h1 h2 h3 <;>
    simp [load_job_file, h1, h2, h3, pyInt]

/-- C2 witness: the spec's example descriptor, and the two default
cases. -/
theorem load_roundtrip_defaults_witness :
    load_job_file "f" 3 (some (Json.jobj
      [("id", Json.jstr "a"), ("priority", Json.jint 5), ("command", Json.jstr "echo hi")])) =
      some ⟨5, 3, "a", "echo hi", Json.jobj
      [("id", Json.jstr "a"), ("priority", Json.jint 5), ("command", Json.jstr "echo hi")]⟩ ∧
    load_job_file "f" 3 (some (Json.jobj
      [("priority", Json.jint 5), ("command", Json.jstr "echo hi")])) =
      some ⟨5, 3, "f", "echo hi", Json.jobj
      [("priority", Json.jint 5), ("command", Json.jstr "echo hi")]⟩ ∧
    load_job_file "f" 3 (some (Json.jobj
      [("id", Json.jstr "a"), ("command", Json.jstr "echo hi")])) =
      some ⟨0, 3, "a", "echo hi", Json.jobj
      [("id", Json.jstr "a"), ("command", Json.jstr "echo hi")]⟩ :=
  ⟨(load_roundtrip_defaults "f" 3 _ "a" "echo hi" 5).1 rfl rfl rfl,
   (load_roundtrip_defaults "f" 3 _ "a" "echo hi" 5).2.1 rfl rfl rfl,
   (load_roundtrip_defaults "f" 3 _ "a" "echo hi" 5).2.2 rfl rfl rfl⟩

/-- C10: a present `priority` field is coerced with Python's `int()`:
the load succeeds with priority `n` exactly when the coercion yields
`n`, and fails exactly when the value is not int-coercible; the string
"7" coerces to 7 and the float 7.9 truncates toward zero to 7 (while
the string "7.9" is not int-coercible). -/
theorem priority_int_coercion_spec (stem : String) (mtime : Int)
    (fields : List (String × Json)) (v : Json) (i c : String) :
    (lookup fields "id" = some (Json.jstr i) →
      lookup fields "priority" = some v →
      lookup fields "command" = some (Json.jstr c) →
      ((∀ n : Int, pyInt v = some n →
        load_job_file stem mtime (some (Json.jobj fields)) =
          some ⟨n, mtime, i, c, Json.jobj fields⟩) ∧
       (pyInt v = none →
        load_job_file stem mtime (some (Json.jobj fields)) = none))) ∧
    pyInt (Json.jstr "7") = some 7 ∧
    pyInt (Json.jfloat (mkRat 79 10)) = some 7 ∧
    pyInt (Json.jstr "7.9") = none := by
  refine ⟨?_, rfl, rfl, rfl⟩
  intro h1 h2 h3
  constructor
  · intro n hn
    simp [load_job_file, h1, h2, h3, hn]
  · intro hn
    simp [load_job_file, h1, h2, h3, hn]

/-- C10 witness: a descriptor whose priority is the string "7" loads
with priority 7, and one whose priority is the float 7.9 loads with
priority 7. -/
theorem priority_int_coercion_spec_witness :
    load_job_file "f" 0 (some (Json.jobj
      [("id", Json.jstr "a"), ("priority", Json.jstr "7"), ("command", Json.jstr "c")])) =
      some ⟨7, 0, "a", "c", Json.jobj
      [("id", Json.jstr "a"), ("priority", Json.jstr "7"), ("command", Json.jstr "c")]⟩ ∧
    load_job_file "f" 0 (some (Json.jobj
      [("id", Json.jstr "a"), ("priority", Json.jfloat (mkRat 79 10)),
       ("command", Json.jstr "c")])) =
      some ⟨7, 0, "a", "c", Json.jobj
      [("id", Json.jstr "a"), ("priority", Json.jfloat (mkRat 79 10)),
       ("command", Json.jstr "c")]⟩ ∧
    load_job_file "f" 0 (some (Json.jobj
      [("id", Json.jstr "a"), ("priority", Json.jstr "7.9"), ("command", Json.jstr "c")]))
      = none :=
  ⟨((priority_int_coercion_spec "f" 0
      [("id", Json.jstr "a"), ("priority", Json.jstr "7"), ("command", Json.jstr "c")]
      (Json.jstr "7") "a" "c").1 rfl rfl rfl).1 7 rfl,
   ((priority_int_coercion_spec "f" 0
      [("id", Json.jstr "a"), ("priority", Json.jfloat (mkRat 79 10)),
       ("command", Json.jstr "c")]
      (Json.jfloat (mkRat 79 10)) "a" "c").1 rfl rfl rfl).1 7 rfl,
   ((priority_int_coercion_spec "f" 0
      [("id", Json.jstr "a"), ("priority", Json.jstr "7.9"), ("command", Json.jstr "c")]
      (Json.jstr "7.9") "a" "c").1 rfl rfl rfl).2 rfl⟩

/-- C4 (amended): the loader requires `command` to be present --- every
accepted record's command is exactly the string stored under "command"
in the descriptor, and a missing command fails the load --- but it does
not check emptiness: a present-but-empty command string is accepted and
produces a record whose command is the empty string. -/
theorem command_present_iff_load_ok (stem : String) (mtime : Int)
    (fields : List (String × Json)) (r : JobItem) :
    (load_job_file stem mtime (some (Json.jobj fields)) = some r →
      lookup fields "command" = some (Json.jstr r.command)) ∧
    (lookup fields "command" = none →
      load_job_file stem mtime (some (Json.jobj fields)) = none) := by
  have hmain : ∀ r2 : JobItem,
      load_job_file stem mtime (some (Json.jobj fields)) = some r2 →
      lookup fields "command" = some (Json.jstr r2.command) := by
    intro r2 h
    unfold load_job_file at h
    simp only [Option.bind_eq_bind, Option.some_bind] at h
    rcases hid : lookup fields "id" with _ | _ | b | n | qq | s | xs | fs2 <;>
      simp only [hid, Option.none_bind, Option.bind_eq_bind] at h <;>
      try exact Option.noConfusion h
    all_goals
      rcases hpr : pyInt ((lookup fields "priority").getD (Json.jint 0)) with _ | p <;>
        simp only [hpr, Option.none_bind, Option.some_bind] at h <;>
        try exact Option.noConfusion h
    all_goals
      rcases hlk : lookup fields "command" with _ | _ | b2 | n2 | q2 | s2 | xs2 | fs3 <;>
        simp only [hlk, Option.none_bind] at h <;>
        try exact Option.noConfusion h
    all_goals
      rw [Option.some.injEq] at h
      subst h
      rfl
  refine ⟨hmain r, ?_⟩
  intro hnone
  rcases hload : load_job_file stem mtime (some (Json.jobj fields)) with _ | r2
  · rfl
  · have hc := hmain r2 hload
    rw [hnone] at hc
    exact Option.noConfusion hc

/-- C4 witness: a descriptor with command "echo hi" loads to a record
whose command is that string, and a descriptor without command fails. -/
theorem command_present_iff_load_ok_witness :
    lookup [("command", Json.jstr "echo hi")] "command" =
      some (Json.jstr (JobItem.command ⟨0, 3, "f", "echo hi",
        Json.jobj [("command", Json.jstr "echo hi")]⟩)) ∧
    load_job_file "f" 3 (some (Json.jobj [("id", Json.jstr "a")])) = none :=
  ⟨(command_present_iff_load_ok "f" 3 [("command", Json.jstr "echo hi")]
      ⟨0, 3, "f", "echo hi", Json.jobj [("command", Json.jstr "echo hi")]⟩).1 rfl,
   (command_present_iff_load_ok "f" 3 [("id", Json.jstr "a")]
      ⟨0, 3, "f", "", Json.jnull⟩).2 rfl⟩

/-- C4 counterexample: a descriptor whose command is present but empty
is accepted by the loader, and the resulting record's command is the
empty string --- the loader never rejects an empty command. -/
theorem empty_command_accepted :
    (load_job_file "f" 0 (some (Json.jobj [("command", Json.jstr "")]))).map
      JobItem.command = some "" := rfl

theorem scan_files_eq (files : List JobFile) (queue : JobQueue) :
    (scan_jobs_directory files queue).1 =
      files.filter (fun f => (load_job_file f.stem f.mtime f.content).isNone) := by
  induction files generalizing queue with
  | nil => rfl
  | cons f rest ih =>
    rcases hld : load_job_file f.stem f.mtime f.content with _ | item <;>
      simp [scan_jobs_directory, hld, List.filter_cons, ih]

theorem scan_queue_mset (files : List JobFile) (queue : JobQueue) :
    ((scan_jobs_directory files queue).2._queue : Multiset JobItem) =
      ↑queue._queue +
        ↑(files.filterMap (fun f => load_job_file f.stem f.mtime f.content)) := by
  induction files generalizing queue with
  | nil => simp [scan_jobs_directory]
  | cons f rest ih =>
    rcases hld : load_job_file f.stem f.mtime f.content with _ | item
    · simp only [scan_jobs_directory, hld, List.filterMap_cons]
      exact ih queue
    · simp only [scan_jobs_directory, hld, List.filterMap_cons]
      rw [ih (queue.push item)]
      show ((heappush itemLt queue._queue item : List JobItem) : Multiset JobItem) + _ = _
      rw [heappush_mset]
      simp only [← Multiset.cons_coe]
      rw [Multiset.cons_add, Multiset.add_cons]

/-- C3: after a directory scan, the files remaining are exactly those
whose load fails --- a file is deleted if and only if its load
succeeded, so a successfully loaded file cannot be seen (hence cannot be
enqueued again) by any later scan --- and the queue has gained exactly
the successfully loaded jobs, with nothing enqueued for failing
files. -/
theorem scan_delete_iff_load_ok (files : List JobFile) (queue : JobQueue) :
    (scan_jobs_directory files queue).1 =
      files.filter (fun f => (load_job_file f.stem f.mtime f.content).isNone) ∧
    ((scan_jobs_directory files queue).2._queue : Multiset JobItem) =
      ↑queue._queue +
        ↑(files.filterMap (fun f => load_job_file f.stem f.mtime f.content)) ∧
    (∀ f ∈ files, (load_job_file f.stem f.mtime f.content).isSome = true →
      f ∉ (scan_jobs_directory files queue).1) := by
  refine ⟨scan_files_eq files queue, scan_queue_mset files queue, ?_⟩
  intro f hf hsome hmem
  rw [scan_files_eq files queue] at hmem
  have hnone := (List.mem_filter.mp hmem).2
  rcases hld : load_job_file f.stem f.mtime f.content with _ | it
  · rw [hld] at hsome
    exact Bool.noConfusion hsome
  · rw [hld] at hnone
    exact Bool.noConfusion hnone

/-- C3 witness: a scan over one well-formed and one malformed descriptor
deletes and enqueues the former and keeps the latter. -/
theorem scan_delete_iff_load_ok_witness :
    (scan_jobs_directory [⟨"good", 2, some (Json.jobj [("command", Json.jstr "echo")])⟩,
        ⟨"bad", 4, none⟩] ⟨[]⟩).1 =
      [⟨"bad", 4, none⟩] ∧
    ((scan_jobs_directory [⟨"good", 2, some (Json.jobj [("command", Json.jstr "echo")])⟩,
        ⟨"bad", 4, none⟩] ⟨[]⟩).2._queue : Multiset JobItem) =
      ↑([] : List JobItem) +
        ↑[(⟨0, 2, "good", "echo", Json.jobj [("command", Json.jstr "echo")]⟩ : JobItem)] ∧
    (⟨"good", 2, some (Json.jobj [("command", Json.jstr "echo")])⟩ : JobFile) ∉
      (scan_jobs_directory [⟨"good", 2, some (Json.jobj [("command", Json.jstr "echo")])⟩,
        ⟨"bad", 4, none⟩] ⟨[]⟩).1 := by
  refine ⟨rfl, rfl, ?_⟩
  exact (scan_delete_iff_load_ok
    [⟨"good", 2, some (Json.jobj [("command", Json.jstr "echo")])⟩, ⟨"bad", 4, none⟩]
    ⟨[]⟩).2.2 ⟨"good", 2, some (Json.jobj [("command", Json.jstr "echo")])⟩
    (List.mem_cons_self _ _) rfl

/-- C5: `process_job` records a zero exit status as a success with the
captured stdout and stderr; it records a nonzero exit status (for
example 2) as a failure carrying the exit status and the captured
output; a launch failure is caught by the generic handler and recorded
as a failed job; in every case the function returns normally (it is
total --- every exception path is caught).  Moreover a dispatching loop
iteration leaves exactly the popped job's remainder as the queue (the
job is neither retried nor re-enqueued), records the job's terminal
result, and leaves the loop running for the next cycle. -/
theorem process_job_terminal_spec :
    (∀ (job : JobItem) (out err : String),
      process_job job (RunOutcome.completed 0 out err) = JobResult.success out err) ∧
    (∀ (job : JobItem) (rc : Int) (out err : String), rc ≠ 0 →
      process_job job (RunOutcome.completed rc out err) = JobResult.failure rc out err) ∧
    (∀ (job : JobItem) (m : String),
      process_job job (RunOutcome.launchFailure m) = JobResult.unexpectedError m) ∧
    (∀ (inp : StepInput) (s : LoopState) (job : JobItem) (q2 : JobQueue),
      s.stopped = false → inp.killNow = false →
      (scan_jobs_directory (s.files ++ inp.newFiles) s.queue).2.pop = (some job, q2) →
      (loopStep inp s).queue = q2 ∧ (loopStep inp s).stopped = false ∧
      (loopStep inp s).log = s.log ++ [Event.started job.job_id job.command,
        Event.finished job.job_id (process_job job (inp.run job))]) := by
  refine ⟨fun job out err => rfl, ?_, fun job m => rfl, ?_⟩
  · intro job rc out err hrc
    simp [process_job, hrc]
  · intro inp s job q2 hs hk hpop
    rw [loopStep_dispatch inp s job q2 hs hk hpop]
    exact ⟨rfl, rfl, rfl⟩

/-- C5 witness: a command exiting with status 2 is recorded as a failure
with exit code 2 and the captured stderr, and the dispatching iteration
that ran it continues with the job removed from the queue. -/
theorem process_job_terminal_spec_witness :
    process_job ⟨1, 0, "a", "boom", Json.jnull⟩ (RunOutcome.completed 2 "" "err out") =
      JobResult.failure 2 "" "err out" ∧
    ((loopStep ⟨false, [], fun _ => RunOutcome.completed 2 "" "err out"⟩
        ⟨[], ⟨[⟨1, 0, "a", "boom", Json.jnull⟩]⟩, [], false⟩).queue = ⟨[]⟩ ∧
      (loopStep ⟨false, [], fun _ => RunOutcome.completed 2 "" "err out"⟩
        ⟨[], ⟨[⟨1, 0, "a", "boom", Json.jnull⟩]⟩, [], false⟩).stopped = false ∧
      (loopStep ⟨false, [], fun _ => RunOutcome.completed 2 "" "err out"⟩
        ⟨[], ⟨[⟨1, 0, "a", "boom", Json.jnull⟩]⟩, [], false⟩).log =
        [] ++ [Event.started "a" "boom",
          Event.finished "a" (process_job ⟨1, 0, "a", "boom", Json.jnull⟩
            (RunOutcome.completed 2 "" "err out"))]) :=
  ⟨process_job_terminal_spec.2.1 ⟨1, 0, "a", "boom", Json.jnull⟩ 2 "" "err out"
      (by decide),
   process_job_terminal_spec.2.2.2
      ⟨false, [], fun _ => RunOutcome.completed 2 "" "err out"⟩
      ⟨[], ⟨[⟨1, 0, "a", "boom", Json.jnull⟩]⟩, [], false⟩
      ⟨1, 0, "a", "boom", Json.jnull⟩ ⟨[]⟩ rfl rfl rfl⟩

/-- C6: the signal handler only sets the shutdown flag, and the flag is
consulted only at the top of each loop iteration.  An iteration that
observes the flag stops the loop without dispatching or executing
anything; once stopped, no further input changes the state (no job is
ever dispatched after shutdown is observed).  An iteration that did not
observe the flag and dispatched a job records the job's start and its
terminal result within that same iteration --- nothing can interrupt it
in the model, where the flag is re-read only at the next iteration ---
and a shutdown flag arriving at the next iteration produces the clean
stop strictly after the job's terminal result in the log. -/
theorem shutdown_graceful_spec :
    (∀ k : GracefulKiller, k.exit_gracefully.kill_now = true) ∧
    (GracefulKiller.init.kill_now = false) ∧
    (∀ (inp : StepInput) (s : LoopState), s.stopped = true → loopStep inp s = s) ∧
    (∀ (inps : List StepInput) (s : LoopState), s.stopped = true → loopRun s inps = s) ∧
    (∀ (inp : StepInput) (s : LoopState), s.stopped = false → inp.killNow = true →
      loopStep inp s = { s with stopped := true, log := s.log ++ [Event.stoppedClean] }) ∧
    (∀ (inp1 inp2 : StepInput) (s : LoopState) (job : JobItem) (q2 : JobQueue),
      s.stopped = false → inp1.killNow = false → inp2.killNow = true →
      (scan_jobs_directory (s.files ++ inp1.newFiles) s.queue).2.pop = (some job, q2) →
      (loopRun s [inp1, inp2]).stopped = true ∧
      (loopRun s [inp1, inp2]).log = s.log ++
        [Event.started job.job_id job.command,
         Event.finished job.job_id (process_job job (inp1.run job)),
         Event.stoppedClean]) := by
  refine ⟨fun k => rfl, rfl, loopStep_absorb, loopRun_absorb, loopStep_kill, ?_⟩
  intro inp1 inp2 s job q2 hs hk1 hk2 hpop
  show (loopStep inp2 (loopStep inp1 s)).stopped = true ∧
    (loopStep inp2 (loopStep inp1 s)).log = _
  rw [loopStep_dispatch inp1 s job q2 hs hk1 hpop,
    loopStep_kill inp2 _ rfl hk2]
  refine ⟨rfl, ?_⟩
  simp

/-- C6 witness: instantiation of each clause that carries hypotheses, on
a stopped state, a kill input, and a dispatching two-step run. -/
theorem shutdown_graceful_spec_witness :
    loopStep ⟨false, [], fun _ => RunOutcome.completed 0 "" ""⟩
      ⟨[], ⟨[]⟩, [], true⟩ = ⟨[], ⟨[]⟩, [], true⟩ ∧
    loopRun ⟨[], ⟨[]⟩, [], true⟩
      [⟨false, [], fun _ => RunOutcome.completed 0 "" ""⟩] = ⟨[], ⟨[]⟩, [], true⟩ ∧
    loopStep ⟨true, [], fun _ => RunOutcome.completed 0 "" ""⟩
      ⟨[], ⟨[]⟩, [], false⟩ =
      { files := [], queue := ⟨[]⟩, log := [] ++ [Event.stoppedClean], stopped := true } ∧
    ((loopRun ⟨[], ⟨[⟨1, 0, "a", "boom", Json.jnull⟩]⟩, [], false⟩
        [⟨false, [], fun _ => RunOutcome.completed 2 "" "err"⟩,
         ⟨true, [], fun _ => RunOutcome.completed 0 "" ""⟩]).stopped = true ∧
      (loopRun ⟨[], ⟨[⟨1, 0, "a", "boom", Json.jnull⟩]⟩, [], false⟩
        [⟨false, [], fun _ => RunOutcome.completed 2 "" "err"⟩,
         ⟨true, [], fun _ => RunOutcome.completed 0 "" ""⟩]).log = [] ++
        [Event.started "a" "boom",
         Event.finished "a" (process_job ⟨1, 0, "a", "boom", Json.jnull⟩
           (RunOutcome.completed 2 "" "err")),
         Event.stoppedClean]) :=
  ⟨shutdown_graceful_spec.2.2.1 ⟨false, [], fun _ => RunOutcome.completed 0 "" ""⟩
      ⟨[], ⟨[]⟩, [], true⟩ rfl,
   shutdown_graceful_spec.2.2.2.1 [⟨false, [], fun _ => RunOutcome.completed 0 "" ""⟩]
      ⟨[], ⟨[]⟩, [], true⟩ rfl,
   shutdown_graceful_spec.2.2.2.2.1 ⟨true, [], fun _ => RunOutcome.completed 0 "" ""⟩
      ⟨[], ⟨[]⟩, [], false⟩ rfl rfl,
   shutdown_graceful_spec.2.2.2.2.2
      ⟨false, [], fun _ => RunOutcome.completed 2 "" "err"⟩
      ⟨true, [], fun _ => RunOutcome.completed 0 "" ""⟩
      ⟨[], ⟨[⟨1, 0, "a", "boom", Json.jnull⟩]⟩, [], false⟩
      ⟨1, 0, "a", "boom", Json.jnull⟩ ⟨[]⟩ rfl rfl rfl rfl⟩

/-- C7 (the claim's override clause is the code bug): when the queue is
empty after a scan, the iteration sleeps for `POLL_INTERVAL` seconds and
the loop continues; `POLL_INTERVAL` is the module constant 1.0, which is
also the default of the `--poll-interval` option that `parse_args` would
return; but `main` never calls `parse_args`, so the idle sleep always
uses the constant: a command-line value such as 5 is not what the idle
sleep uses. -/
theorem poll_interval_constant_spec :
    (∀ (inp : StepInput) (s : LoopState) (q2 : JobQueue),
      s.stopped = false → inp.killNow = false →
      (scan_jobs_directory (s.files ++ inp.newFiles) s.queue).2.pop = (none, q2) →
      (loopStep inp s).log = s.log ++ [Event.slept POLL_INTERVAL] ∧
      (loopStep inp s).stopped = false) ∧
    POLL_INTERVAL = 1 ∧
    (∀ q : Rat, parse_args (some q) = q) ∧
    parse_args none = 1 ∧
    parse_args (some 5) ≠ POLL_INTERVAL := by
  refine ⟨?_, rfl, fun q => rfl, rfl, ?_⟩
  · intro inp s q2 hs hk hpop
    rw [loopStep_idle inp s q2 hs hk hpop]
    exact ⟨rfl, rfl⟩
  · intro h
    norm_num [parse_args, POLL_INTERVAL] at h

/-- C7 witness: the idle clause applied to an empty directory and empty
queue, where the iteration sleeps for exactly 1 second. -/
theorem poll_interval_constant_spec_witness :
    ((loopStep ⟨false, [], fun _ => RunOutcome.completed 0 "" ""⟩
        ⟨[], ⟨[]⟩, [], false⟩).log = [] ++ [Event.slept POLL_INTERVAL] ∧
      (loopStep ⟨false, [], fun _ => RunOutcome.completed 0 "" ""⟩
        ⟨[], ⟨[]⟩, [], false⟩).stopped = false) ∧
    parse_args (some 5) ≠ POLL_INTERVAL :=
  ⟨poll_interval_constant_spec.1 ⟨false, [], fun _ => RunOutcome.completed 0 "" ""⟩
      ⟨[], ⟨[]⟩, [], false⟩ ⟨[]⟩ rfl rfl rfl,
   poll_interval_constant_spec.2.2.2.2⟩

/-- C9 (amended): the dataclass comparison is a deterministic total
order on the compared fields that extends the spec's key by `job_id`
ascending and then by `command` ascending; consequently, for any two
push orders of the same multiset of records, the pop sequences agree at
every position on the whole comparison key (priority, created_at,
job_id, command) --- in particular the smallest job_id comes first among
records tied on priority and created_at.  Records identical in all
compared fields are indistinguishable to the comparison (which excludes
`raw`), and their relative order is not fixed by the multiset. -/
theorem order_extension_spec (a b : JobItem) (xs ys : List JobItem) :
    (a.priority = b.priority → a.created_at = b.created_at →
      (itemLt a b ↔ (a.job_id < b.job_id ∨
        (a.job_id = b.job_id ∧ a.command < b.command)))) ∧
    (xs.Perm ys →
      (popAll itemLt (pushAll itemLt xs)).map itemKey =
        (popAll itemLt (pushAll itemLt ys)).map itemKey) := by
  constructor
  · intro hp hc
    unfold itemLt tupLt sortIndex
    simp [hp, hc]
  · intro hperm
    obtain ⟨m1, s1⟩ := popAll_pushAll itemKey itemLt itemLt_iff xs
    obtain ⟨m2, s2⟩ := popAll_pushAll itemKey itemLt itemLt_iff ys
    have hmm : ((popAll itemLt (pushAll itemLt xs) : List JobItem) : Multiset JobItem) =
        ↑(popAll itemLt (pushAll itemLt ys)) := by
      rw [m1, m2]
      exact Multiset.coe_eq_coe.mpr hperm
    have hperm2 := Multiset.coe_eq_coe.mp hmm
    exact List.eq_of_perm_of_sorted (hperm2.map itemKey)
      (List.pairwise_map.mpr s1) (List.pairwise_map.mpr s2)

/-- C9 witness: the tie-break clause applied to two records tied on
priority and created_at, and the key-determinism clause applied to the
two push orders of a two-record multiset. -/
theorem order_extension_spec_witness :
    (itemLt ⟨5, 3, "a", "x", Json.jnull⟩ ⟨5, 3, "b", "y", Json.jnull⟩ ↔
      ((⟨5, 3, "a", "x", Json.jnull⟩ : JobItem).job_id <
          (⟨5, 3, "b", "y", Json.jnull⟩ : JobItem).job_id ∨
        ((⟨5, 3, "a", "x", Json.jnull⟩ : JobItem).job_id =
            (⟨5, 3, "b", "y", Json.jnull⟩ : JobItem).job_id ∧
          (⟨5, 3, "a", "x", Json.jnull⟩ : JobItem).command <
            (⟨5, 3, "b", "y", Json.jnull⟩ : JobItem).command))) ∧
    (popAll itemLt (pushAll itemLt
        [⟨1, 0, "p", "u", Json.jnull⟩, ⟨9, 0, "q", "v", Json.jnull⟩])).map itemKey =
      (popAll itemLt (pushAll itemLt
        [⟨9, 0, "q", "v", Json.jnull⟩, ⟨1, 0, "p", "u", Json.jnull⟩])).map itemKey :=
  ⟨(order_extension_spec ⟨5, 3, "a", "x", Json.jnull⟩ ⟨5, 3, "b", "y", Json.jnull⟩
      [] []).1 rfl rfl,
   (order_extension_spec ⟨5, 3, "a", "x", Json.jnull⟩ ⟨5, 3, "b", "y", Json.jnull⟩
      [⟨1, 0, "p", "u", Json.jnull⟩, ⟨9, 0, "q", "v", Json.jnull⟩]
      [⟨9, 0, "q", "v", Json.jnull⟩, ⟨1, 0, "p", "u", Json.jnull⟩]).2
      (List.Perm.swap _ _ _)⟩

/-- C9 counterexample: two records equal in every compared field but
with different `raw` payloads form a single multiset, yet the two push
orders yield different pop sequences (each comes out in insertion
order), so the pop sequence is not a single fixed sequence determined
only by the records' field values. -/
theorem full_tie_pop_depends_on_push_order :
    ((popAll itemLt (pushAll itemLt
      [⟨5, 0, "j", "c", Json.jint 1⟩, ⟨5, 0, "j", "c", Json.jint 2⟩])).map JobItem.raw
      = [Json.jint 1, Json.jint 2]) ∧
    ((popAll itemLt (pushAll itemLt
      [⟨5, 0, "j", "c", Json.jint 2⟩, ⟨5, 0, "j", "c", Json.jint 1⟩])).map JobItem.raw
      = [Json.jint 2, Json.jint 1]) ∧
    (([⟨5, 0, "j", "c", Json.jint 1⟩, ⟨5, 0, "j", "c", Json.jint 2⟩] : List JobItem) :
        Multiset JobItem) =
      ↑([⟨5, 0, "j", "c", Json.jint 2⟩, ⟨5, 0, "j", "c", Json.jint 1⟩] : List JobItem) ∧
    [Json.jint 1, Json.jint 2] ≠ [Json.jint 2, Json.jint 1] := by
  refine ⟨rfl, rfl, Multiset.coe_eq_coe.mpr (List.Perm.swap _ _ _), ?_⟩
  intro h
  have h1 := List.head_eq_of_cons_eq h
  injection h1 with h2
  exact absurd h2 (by decide)
